import Mathlib

/-!
Shallow embedding of the deluge-sync rule-evaluation and action-planning
engine (`src/deluge_sync/cli.py` and `src/deluge_sync/client.py`).

Conventions used throughout:
* Python `timedelta` values are rationals counting seconds (the source
  compares and scales them exactly; sub-microsecond rounding of
  `timedelta * float` is not modelled since no claim depends on it).
* Python `Decimal` arithmetic in `_get_under_size` is exact decimal
  arithmetic on dyadic values, so it is modelled with `ℚ`.
* Python `int | None` option fields (`keep_count`, `keep_size`) are
  modelled as `Option Nat` (all occurring values are non-negative) and
  Python truthiness (`if rule.keep_count:`) as `optTruthy`.
* `re.Pattern` name filters are modelled as boolean predicates on strings,
  and compiled regular expressions of the default table as concrete
  executable predicates.
* Python dicts preserve insertion order, so they are modelled as
  association lists with first-occurrence key order.
-/

namespace DelugeSync

/-! ### Formula abstract syntax (`_AST_WHITELIST` / `_parse`)

`TrackerRule.required_seed_time` builds a Python expression string by
substituting `{min!r}`, `{size!r}` and `{buffer}` into `min_formula`,
parses it with `ast.parse`, validates every node of `ast.walk` against
`_AST_WHITELIST`, and evaluates it.  The string/parser round trip is
modelled at the AST level: `FNode` is the expression tree produced by the
parse, with `varMin`/`varSize`/`varBuffer` as the template holes that the
`str.format` call replaces before parsing. -/

/-- Binary operators: every Python `ast.operator` subclass relevant here. -/
inductive PyOp where
  | add | sub | mult | div | floorDiv | mod | pow
  deriving DecidableEq, Repr

mutual
/-- Python expression AST nodes producible by formulas.  `call` carries
keyword arguments only (the shapes `str.format`-substituted formulas can
take); `unaryMinus` models `ast.UnaryOp(ast.USub, _)`, a node kind outside
`_AST_WHITELIST`. -/
inductive FNode where
  | constNum (q : ℚ)
  | constStr (s : String)
  | name (id : String)
  | attr (v : FNode) (field : String)
  | call (fn : FNode) (kwargs : FKwargs)
  | binop (op : PyOp) (l : FNode) (r : FNode)
  | unaryMinus (e : FNode)
  | varMin | varSize | varBuffer
  deriving Repr

/-- Keyword-argument list of an `ast.Call` (each entry an `ast.keyword`). -/
inductive FKwargs where
  | nil
  | cons (key : String) (val : FNode) (rest : FKwargs)
  deriving Repr
end

/-- Classification of AST nodes, mirroring the `isinstance` classes used by
`_AST_WHITELIST`.  `ast.walk` yields the operator object of a `BinOp`, the
`Load` context of `Name`/`Attribute` nodes and `keyword` nodes, so those
all appear as kinds. -/
inductive PyKind where
  | expression | callK | binOpK | attributeK | nameK | loadK | constantK
  | operatorK | keywordK | unaryOpNodeK | unaryOperatorK
  deriving DecidableEq, Repr

mutual
/-- Kinds of all nodes reachable from an expression, as `ast.walk` yields
them (order irrelevant: the source only quantifies with `all`). -/
def walkKinds : FNode → List PyKind
  | .constNum _ => [.constantK]
  | .constStr _ => [.constantK]
  | .name _ => [.nameK, .loadK]
  | .attr v _ => .attributeK :: .loadK :: walkKinds v
  | .call fn kwargs => .callK :: (walkKinds fn ++ walkKindsKw kwargs)
  | .binop _ l r => .binOpK :: .operatorK :: (walkKinds l ++ walkKinds r)
  | .unaryMinus e => .unaryOpNodeK :: .unaryOperatorK :: walkKinds e
  | .varMin => [.nameK, .loadK]
  | .varSize => [.nameK, .loadK]
  | .varBuffer => [.nameK, .loadK]

/-- Kinds contributed by a keyword-argument list. -/
def walkKindsKw : FKwargs → List PyKind
  | .nil => []
  | .cons _ v rest => .keywordK :: (walkKinds v ++ walkKindsKw rest)
end

/-- Membership in `_AST_WHITELIST = (Expression, Call, BinOp, Attribute,
Name, Load, Constant, operator, keyword)`. -/
def wlKind : PyKind → Bool
  | .expression | .callK | .binOpK | .attributeK | .nameK | .loadK
  | .constantK | .operatorK | .keywordK => true
  | _ => false

/-- `all(isinstance(node, _AST_WHITELIST) for node in ast.walk(tree))`:
the walk starts at the root `ast.Expression` node. -/
def pyValid (f : FNode) : Bool :=
  (PyKind.expression :: walkKinds f).all wlKind

/-- Runtime values arising while evaluating a validated formula with
globals `{"datetime": datetime, "timedelta": timedelta}`. -/
inductive PyVal where
  | num (q : ℚ)
  | dur (seconds : ℚ)
  | strV (s : String)
  | tdCtor
  | dtModule
  deriving DecidableEq, Repr

/-- Failure modes of rule compilation and formula handling, mirroring the
`CycloptsError` messages of the source plus a generic evaluation error for
Python-level exceptions (`NameError`, `TypeError`, ...). -/
inductive SyncErr where
  | invalidPriority   -- INVALID_PRIORITY
  | invalidKeep       -- INVALID_KEEP
  | invalidFormula    -- INVALID_FORMULA
  | invalidResult     -- INVALID_RESULT
  | evalError         -- any other exception escaping `eval`
  deriving DecidableEq, Repr

/-- Seconds contributed by one `timedelta` keyword argument. -/
def tdSeconds (key : String) (q : ℚ) : Option ℚ :=
  match key with
  | "weeks" => some (q * 604800)
  | "days" => some (q * 86400)
  | "hours" => some (q * 3600)
  | "minutes" => some (q * 60)
  | "seconds" => some q
  | "milliseconds" => some (q / 1000)
  | "microseconds" => some (q / 1000000)
  | _ => none

/-- Semantics of one Python binary operation on the value domain (pairs
not listed raise `TypeError` in Python, modelled as `evalError`). -/
def applyOp (op : PyOp) (a b : PyVal) : Except SyncErr PyVal :=
  match op, a, b with
  | .add, .num x, .num y => .ok (.num (x + y))
  | .add, .dur x, .dur y => .ok (.dur (x + y))
  | .add, .strV x, .strV y => .ok (.strV (x ++ y))
  | .sub, .num x, .num y => .ok (.num (x - y))
  | .sub, .dur x, .dur y => .ok (.dur (x - y))
  | .mult, .num x, .num y => .ok (.num (x * y))
  | .mult, .dur x, .num y => .ok (.dur (x * y))
  | .mult, .num x, .dur y => .ok (.dur (x * y))
  | .div, .num x, .num y => if y = 0 then .error .evalError else .ok (.num (x / y))
  | .div, .dur x, .num y => if y = 0 then .error .evalError else .ok (.dur (x / y))
  | .div, .dur x, .dur y => if y = 0 then .error .evalError else .ok (.num (x / y))
  | _, _, _ => .error .evalError

mutual
/-- Evaluation of a formula expression under the restricted globals of
`_parse` (`__builtins__` disabled, only `datetime` and `timedelta`
bound). -/
def evalF : FNode → Except SyncErr PyVal
  | .constNum q => .ok (.num q)
  | .constStr s => .ok (.strV s)
  | .name s =>
      if s = "timedelta" then .ok .tdCtor
      else if s = "datetime" then .ok .dtModule
      else .error .evalError
  | .attr v f =>
      match evalF v with
      | .ok .dtModule => if f = "timedelta" then .ok .tdCtor else .error .evalError
      | .ok _ => .error .evalError
      | .error e => .error e
  | .call fn kwargs =>
      match evalF fn with
      | .ok .tdCtor =>
          match evalKw kwargs with
          | .ok s => .ok (.dur s)
          | .error e => .error e
      | .ok _ => .error .evalError
      | .error e => .error e
  | .binop op l r =>
      match evalF l with
      | .error e => .error e
      | .ok a =>
          match evalF r with
          | .error e => .error e
          | .ok b => applyOp op a b
  | .unaryMinus e =>
      match evalF e with
      | .ok (.num q) => .ok (.num (-q))
      | .ok (.dur q) => .ok (.dur (-q))
      | .ok _ => .error .evalError
      | .error e' => .error e'
  | .varMin => .error .evalError
  | .varSize => .error .evalError
  | .varBuffer => .error .evalError

/-- Total seconds of a `timedelta(**kwargs)` call. -/
def evalKw : FKwargs → Except SyncErr ℚ
  | .nil => .ok 0
  | .cons k v rest =>
      match evalF v with
      | .ok (.num q) =>
          match tdSeconds k q with
          | some s =>
              match evalKw rest with
              | .ok t => .ok (s + t)
              | .error e => .error e
          | none => .error .evalError
      | .ok _ => .error .evalError
      | .error e => .error e
end

/-- The `_parse` pipeline on an already-parsed tree: whitelist validation
(`INVALID_FORMULA`), evaluation, and the `isinstance(result, timedelta)`
check (`INVALID_RESULT`).  Returns the resulting duration in seconds. -/
def parseFormula (f : FNode) : Except SyncErr ℚ :=
  if ¬ pyValid f then .error .invalidFormula
  else
    match evalF f with
    | .ok (.dur d) => .ok d
    | .ok _ => .error .invalidResult
    | .error e => .error e

mutual
/-- Substitution of the `str.format` template holes: `{min!r}` becomes the
`repr` of a `timedelta` (an attribute call `datetime.timedelta(...)`
evaluating to that duration), `{size!r}` and `{buffer}` become numeric
literals. -/
def substFormula (f : FNode) (minT size buffer : ℚ) : FNode :=
  match f with
  | .varMin => .call (.attr (.name "datetime") "timedelta")
      (.cons "seconds" (.constNum minT) .nil)
  | .varSize => .constNum size
  | .varBuffer => .constNum buffer
  | .attr v fld => .attr (substFormula v minT size buffer) fld
  | .call fn kwargs =>
      .call (substFormula fn minT size buffer) (substKw kwargs minT size buffer)
  | .binop op l r =>
      .binop op (substFormula l minT size buffer) (substFormula r minT size buffer)
  | .unaryMinus e => .unaryMinus (substFormula e minT size buffer)
  | .constNum q => .constNum q
  | .constStr s => .constStr s
  | .name s => .name s

/-- Substitution inside keyword arguments. -/
def substKw (k : FKwargs) (minT size buffer : ℚ) : FKwargs :=
  match k with
  | .nil => .nil
  | .cons key v rest =>
      .cons key (substFormula v minT size buffer) (substKw rest minT size buffer)
end

mutual
/-- Modelled from the spec: the restricted formula grammar the design
document permits — "duration/number literals, `+`, `*`, and attribute
access for duration constructors".  This is the specification-side
definition used to compare the spec's description of `InvalidFormula`
against the source's `_AST_WHITELIST` check. -/
def specGrammar : FNode → Bool
  | .constNum _ => true
  | .name s => s = "timedelta" || s = "datetime"
  | .attr v fld => specGrammar v && fld = "timedelta"
  | .call fn kwargs => specGrammar fn && specGrammarKw kwargs
  | .binop op l r => (op = PyOp.add || op = PyOp.mult) && specGrammar l && specGrammar r
  | .varMin => true
  | .varSize => true
  | .varBuffer => true
  | _ => false

/-- Modelled from the spec: grammar restriction on keyword arguments. -/
def specGrammarKw : FKwargs → Bool
  | .nil => true
  | .cons _ v rest => specGrammar v && specGrammarKw rest
end

/-! ### Data model (`TrackerRule`, `Torrent`) -/

/-- Python truthiness of an optional integer field (`None` and `0` are
falsy). -/
def optTruthy : Option Nat → Bool
  | some n => n ≠ 0
  | none => false

/-- `TrackerRule` (cli.py).  `min_time` in seconds; `min_formula` at the
AST level as described above; `name_search` as an executable predicate. -/
structure TrackerRule where
  host : String
  priority : Int
  min_time : ℚ
  min_formula : Option FNode := none
  name_search : Option (String → Bool) := none
  keep_count : Option Nat := none
  keep_size : Option Nat := none

/-- `Torrent` (client.py), restricted to the fields the sync engine reads.
Display-only fields (`state`, `time_added`, `progress`, `total_done`,
`tracker_status`) are omitted: no decision depends on them. -/
structure Torrent where
  id : String
  name : String
  label : String
  tracker_host : String
  tracker_alias : String
  seeding_time : ℚ
  download_location : String
  total_wanted : Nat
  deriving DecidableEq, Repr

/-- `_GIBIBYTE = Decimal(1024) ** 3`; `Decimal(total_wanted) / _GIBIBYTE`. -/
def sizeGiB (wanted : Nat) : ℚ :=
  (wanted : ℚ) / ((1024 : ℚ) ^ 3)

/-- `TrackerRule.required_seed_time`: plain `min_time * buffer` without a
formula, otherwise format-substitute and `_parse`. -/
def requiredSeedTime (r : TrackerRule) (t : Torrent) (buffer : ℚ) : Except SyncErr ℚ :=
  match r.min_formula with
  | none => .ok (r.min_time * buffer)
  | some f => parseFormula (substFormula f r.min_time (sizeGiB t.total_wanted) buffer)

/-! ### Seed-Time Evaluator (`_check_torrent`) -/

/-- The `for rule in rules` loop of `_check_torrent`: skip on a
non-matching `name_search`, return `True` on the first rule whose
required seed time is exceeded, fall through otherwise. -/
def checkTorrentLoop (t : Torrent) (buffer : ℚ) : List TrackerRule → Except SyncErr Bool
  | [] => .ok false
  | r :: rest =>
      if (match r.name_search with | some p => ! p t.name | none => false) then
        checkTorrentLoop t buffer rest
      else
        match requiredSeedTime r t buffer with
        | .error e => .error e
        | .ok req =>
            if t.seeding_time > req then .ok true else checkTorrentLoop t buffer rest

/-- `_check_torrent`: with no rules, compare against the default seed
time; otherwise run the rule loop. -/
def checkTorrent (t : Torrent) (rules : List TrackerRule)
    (defaultSeedTime buffer : ℚ) : Except SyncErr Bool :=
  match rules with
  | [] => .ok (decide (t.seeding_time > defaultSeedTime))
  | r :: rest => checkTorrentLoop t buffer (r :: rest)

/-! ### Grouping helpers (ordered dicts as association lists) -/

/-- Host-indexed rule table (`dict[str, list[TrackerRule]]`). -/
abbrev HostMap := List (String × List TrackerRule)

/-- `rules.get(host, [])`. -/
def lookupHost (m : HostMap) (h : String) : List TrackerRule :=
  ((m.find? (fun p => p.1 = h)).map (fun p => p.2)).getD []

/-- One step of grouping by key, preserving dict insertion order. -/
def addToGroup (m : HostMap) (r : TrackerRule) : HostMap :=
  if m.any (fun p => p.1 = r.host) then
    m.map (fun p => if p.1 = r.host then (p.1, p.2 ++ [r]) else p)
  else
    m ++ [(r.host, [r])]

/-- The grouping loop shared by `_get_default_rules` and
`_get_env_rules`. -/
def groupByHost (rs : List TrackerRule) : HostMap :=
  rs.foldl addToGroup []

/-- Torrent groups keyed by tracker alias (`_torrents_by_tracker`). -/
abbrev TorrentGroups := List (String × List Torrent)

/-- One step of `_torrents_by_tracker`. -/
def addTorrentToGroup (m : TorrentGroups) (t : Torrent) : TorrentGroups :=
  if m.any (fun p => p.1 = t.tracker_alias) then
    m.map (fun p => if p.1 = t.tracker_alias then (p.1, p.2 ++ [t]) else p)
  else
    m ++ [(t.tracker_alias, [t])]

/-- `_torrents_by_tracker`. -/
def torrentsByTracker (ts : List Torrent) : TorrentGroups :=
  ts.foldl addTorrentToGroup []

/-! ### Retention Filter (`_get_under_size`, `_filter_out_keep`)

Python's `sorted` is a stable sort, exactly `List.insertionSort` of the
corresponding non-strict relation. -/

/-- Descending-by-`total_wanted` relation used by
`sorted(..., key=lambda x: x.total_wanted, reverse=True)`. -/
def descWanted (a b : Torrent) : Prop := b.total_wanted ≤ a.total_wanted

instance : DecidableRel descWanted := fun _ _ => Nat.decLe _ _

/-- `sorted(tracker_torrents, key=lambda x: x.total_wanted, reverse=True)`. -/
def sortDescWanted (ts : List Torrent) : List Torrent :=
  List.insertionSort descWanted ts

/-- Loop body of `_get_under_size`: accumulate sizes in GiB; on the first
torrent pushing the total strictly over `keep_size`, return the torrents
strictly after it (`torrents[index + 1 :]`) and stop. -/
def getUnderSizeGo (keepSize : ℚ) (total : ℚ) :
    List Torrent → ℚ × Option (List Torrent)
  | [] => (total, none)
  | t :: rest =>
      let total' := total + sizeGiB t.total_wanted
      if total' > keepSize then (total', some rest)
      else getUnderSizeGo keepSize total' rest

/-- `_get_under_size`. -/
def getUnderSize (ts : List Torrent) (keepSize : ℚ) : ℚ × Option (List Torrent) :=
  getUnderSizeGo keepSize 0 ts

/-- Per-tracker body of `_filter_out_keep`: returns the torrents of one
group added to `to_check` (eligible for removal consideration).  Note the
`if to_add:` guard makes an empty crossing suffix contribute nothing. -/
def filterGroup (trackerRules : List TrackerRule) (group : List Torrent) :
    List Torrent :=
  let sorted := sortDescWanted group
  match trackerRules with
  | [] => sorted
  | ruleZero :: _ =>
      if ¬ optTruthy ruleZero.keep_count ∧ ¬ optTruthy ruleZero.keep_size then
        sorted
      else if optTruthy ruleZero.keep_count then
        let n := ruleZero.keep_count.getD 0
        if sorted.length < n then [] else sorted.drop n
      else
        match (getUnderSize sorted ((ruleZero.keep_size.getD 0 : Nat) : ℚ)).2 with
        | some (t :: ts) => t :: ts
        | _ => []

/-- `_filter_out_keep`: the set of eligible torrent ids, represented as a
list used only through membership. -/
def filterOutKeep (torrents : List Torrent) (rules : HostMap) : List String :=
  (torrentsByTracker torrents).foldl
    (fun acc g => acc ++ (filterGroup (lookupHost rules g.1) g.2).map Torrent.id) []

/-- Modelled from the spec's words for comparison with `getUnderSize`:
the position just past "the first torrent that pushes the running total
over S" (`none` when the cumulative total never exceeds `S`). -/
def crossCount (keepSize : ℚ) (total : ℚ) : List Torrent → Option Nat
  | [] => none
  | t :: rest =>
      let total' := total + sizeGiB t.total_wanted
      if total' > keepSize then some 1
      else (crossCount keepSize total' rest).map (· + 1)

/-! ### Rule Compiler (`_get_default_rules`, `_get_env_rules`, `_compile_rules`) -/

/-- Ascending-priority relation of `sorted(tracker_rules, key=lambda r:
r.priority)` (stable). -/
def ascPriority (a b : TrackerRule) : Prop := a.priority ≤ b.priority

instance : DecidableRel ascPriority := fun _ _ => Int.decLe _ _

/-- `sorted(tracker_rules, key=lambda r: r.priority)`. -/
def sortAscPriority (rs : List TrackerRule) : List TrackerRule :=
  List.insertionSort ascPriority rs

/-- The overlay loop building the synthetic retention rule: clone the
lowest-priority entry and overwrite `keep_count` from every rule of the
group that declares a truthy one (later rules win). -/
def overlayKeepCount (base : TrackerRule) (rs : List TrackerRule) : TrackerRule :=
  rs.foldl (fun acc r => if optTruthy r.keep_count then { acc with keep_count := r.keep_count } else acc) base

/-- Per-host body of the `_compile_rules` loop: sort, check the base
priority, and for multi-rule groups synthesize and prepend the retention
rule when it carries a truthy `keep_count` or `keep_size` (rejecting the
case where it carries both).  The synthetic rule keeps the copied
priority of the lowest-priority entry — the source never sets it to 0. -/
def compileHost (trackerRules : List TrackerRule) :
    Except SyncErr (List TrackerRule) :=
  match sortAscPriority trackerRules with
  | [] => .ok []
  | r0 :: rest =>
      if r0.priority < 1 then .error .invalidPriority
      else if rest.isEmpty then .ok (r0 :: rest)
      else if optTruthy (overlayKeepCount r0 (r0 :: rest)).keep_count
          ∨ optTruthy (overlayKeepCount r0 (r0 :: rest)).keep_size then
        if optTruthy (overlayKeepCount r0 (r0 :: rest)).keep_count
            ∧ optTruthy (overlayKeepCount r0 (r0 :: rest)).keep_size then
          .error .invalidKeep
        else .ok (overlayKeepCount r0 (r0 :: rest) :: r0 :: rest)
      else .ok (r0 :: rest)

/-- The full `_compile_rules` loop over the host table (dict order
preserved; the first failing host aborts compilation). -/
def compileAll (m : HostMap) : Except SyncErr HostMap :=
  m.foldlM (fun acc p =>
    match compileHost p.2 with
    | .ok c => .ok (acc ++ [(p.1, c)])
    | .error e => .error e) []

/-- The `search` of the compiled default pattern
`re.compile(r"(?i)S[0-9][0-9]E[0-9][0-9]")` at one position. -/
def sxxExxAt : List Char → Bool
  | s :: a :: b :: e :: c :: d :: _ =>
      (s == 'S' || s == 's') && a.isDigit && b.isDigit &&
      (e == 'E' || e == 'e') && c.isDigit && d.isDigit
  | _ => false

/-- Scan for the pattern anywhere in the character list. -/
def sxxExxGo : List Char → Bool
  | [] => false
  | c :: rest => sxxExxAt (c :: rest) || sxxExxGo rest

/-- `re.compile(r"(?i)S[0-9][0-9]E[0-9][0-9]").search(name)` as a boolean. -/
def sxxExxSearch (s : String) : Bool := sxxExxGo s.data

/-- The formula template `"({min!r}+(timedelta(hours=2)*{size!r})) * {buffer}"`
of the avistaz/exoticaz default rules, as its parsed AST with template
holes. -/
def bufferedSizeFormula : FNode :=
  .binop .mult
    (.binop .add .varMin
      (.binop .mult
        (.call (.name "timedelta") (.cons "hours" (.constNum 2) .nil))
        .varSize))
    .varBuffer

/-- `DEFAULT_RULES` (durations converted to seconds). -/
def DEFAULT_RULES : List TrackerRule :=
  [ { host := "avistaz.to", priority := 10, min_time := 3 * 86400,
      min_formula := some bufferedSizeFormula }
  , { host := "blutopia.cc", priority := 10, min_time := 10 * 86400,
      keep_size := some 10440 }
  , { host := "exoticaz.to", priority := 10, min_time := 3 * 86400,
      min_formula := some bufferedSizeFormula }
  , { host := "flacsfor.me", priority := 10, min_time := 7 * 86400 }
  , { host := "landof.tv", priority := 1, min_time := 86400,
      name_search := some sxxExxSearch }
  , { host := "landof.tv", priority := 10, min_time := 5 * 86400 }
  , { host := "myanonamouse.net", priority := 10, min_time := 3 * 86400 }
  , { host := "opsfet.ch", priority := 10, min_time := 7 * 86400 }
  , { host := "seedpool.org", priority := 10, min_time := 10 * 86400 }
  , { host := "torrentbytes.net", priority := 10, min_time := 3 * 86400 }
  , { host := "torrentleech.org", priority := 10, min_time := 10 * 86400,
      keep_count := some 100 }
  , { host := "rptscene.xyz", priority := 10, min_time := 86400 }
  ]

/-- `_get_default_rules`. -/
def getDefaultRules : HostMap := groupByHost DEFAULT_RULES

/-- `_get_env_rules` post JSON decoding: `none` models an unset or empty
`DELUGE_SYNC_RULES` (the source returns `None` for both); a present value
is the decoded rule list, grouped by host. -/
def getEnvRules (env : Option (List TrackerRule)) : Option HostMap :=
  env.map groupByHost

/-- Source selection of `_compile_rules`:
`rules = _get_env_rules(ctx) or _get_default_rules(ctx)` — Python's `or`
also discards a present but *empty* dict. -/
def ruleSource (env : Option (List TrackerRule)) : HostMap :=
  match getEnvRules env with
  | some m => if m.isEmpty then getDefaultRules else m
  | none => getDefaultRules

/-- `_compile_rules` end to end for a given override source. -/
def compileRules (env : Option (List TrackerRule)) : Except SyncErr HostMap :=
  compileAll (ruleSource env)

/-! ### CLI list-option conversion (`_convert_to_dict` and the label
normalization of `sync`) -/

/-- `key, value = item.split("=")` — any split arity other than two raises
`ValueError`, modelled as `none`. -/
def parseItem (s : String) : Option (String × String) :=
  match s.splitOn "=" with
  | [k, v] => some (k, v)
  | _ => none

/-- `item_map[key] = value` on an insertion-ordered dict. -/
def upsert (m : List (String × String)) (k v : String) : List (String × String) :=
  if m.any (fun p => p.1 = k) then
    m.map (fun p => if p.1 = k then (p.1, v) else p)
  else m ++ [(k, v)]

/-- The `for item in items` loop of `_convert_to_dict`. -/
def convertCore (items : List String) : Option (List (String × String)) :=
  items.foldlM (fun m s => (parseItem s).map (fun p => upsert m p.1 p.2)) []

/-- `_convert_to_dict`: a single-element list is comma-split before the
key/value loop. -/
def convertToDict (items : List String) : Option (List (String × String)) :=
  convertCore (match items with
    | [s] => s.splitOn ","
    | _ => items)

/-- The label normalization at the top of `sync`:
`if labels and len(labels) == 1: labels = labels[0].split(",")`. -/
def normalizeLabels (labels : List String) : List String :=
  match labels with
  | [s] => s.splitOn ","
  | _ => labels

/-! ### Snapshot fetch (`DelugeClient.get_torrents`)

The sync command calls `get_torrents(..., aliases=host_aliases)` and reads
`torrent.tracker_alias`, but the client module in the tree still has the
pre-alias signature (no `aliases` parameter, no `tracker_alias` field).
The alias-resolution part is therefore modelled from the spec; the
exclude-label filtering is taken from the client source. -/

/-- Raw per-torrent fields as returned by `web.update_ui`. -/
structure RawTorrent where
  id : String
  name : String
  label : String
  tracker_host : String
  seeding_time : ℚ
  download_location : String
  total_wanted : Nat
  deriving DecidableEq, Repr

/-- Modelled from the spec: "Tracker alias: the resolved identifying name
for a torrent's tracker after applying any alias remapping"; hosts absent
from the map resolve to themselves. -/
def resolveAlias (aliases : List (String × String)) (host : String) : String :=
  (((aliases.find? (fun p => p.1 = host)).map (fun p => p.2)).getD host)

/-- Modelled from the spec: construction of a snapshot `Torrent` with
`trackerAlias` "always resolved (alias map applied) before rule lookup". -/
def mkTorrent (aliases : List (String × String)) (r : RawTorrent) : Torrent :=
  { id := r.id, name := r.name, label := r.label,
    tracker_host := r.tracker_host,
    tracker_alias := resolveAlias aliases r.tracker_host,
    seeding_time := r.seeding_time,
    download_location := r.download_location,
    total_wanted := r.total_wanted }

/-- `get_torrents`: server-side state/label filters are external; the
client-side part drops excluded labels (`if values["label"] in excluded:
continue`) and builds each `Torrent`, with alias resolution modelled from
the spec as above. -/
def getTorrents (excludeLabels : List String)
    (aliases : List (String × String)) (raw : List RawTorrent) : List Torrent :=
  (raw.filter (fun r => ¬ r.label ∈ excludeLabels)).map (mkTorrent aliases)

/-! ### Action Planner (the per-torrent loop of `sync` and
`_remove_torrents`) -/

/-- Daemon mutation calls issued while executing a pass. -/
inductive Call where
  | relabelC (id lbl : String)
  | moveC (id path : String)
  | removeC (id : String)
  deriving DecidableEq, Repr

/-- Feature flags and remap tables of one `sync` invocation. -/
structure SyncCfg where
  labelRemap : List (String × String)
  pathMap : List (String × String)
  remove : Bool
  move : Bool
  relabel : Bool
  defaultSeedTime : ℚ
  seedBuffer : ℚ
  deriving Repr

/-- Mutable state of the planning loop: the recorded relabel and move
actions, the `to_remove` list in append order, and the daemon calls
issued so far. -/
structure SyncSt where
  relabels : List (String × String)
  moves : List (String × String)
  toRemove : List String
  calls : List Call
  deriving DecidableEq, Repr

/-- `label_remap.get(alias)` / `path_map.get(alias)`. -/
def lookupStr (m : List (String × String)) (k : String) : Option String :=
  (m.find? (fun p => p.1 = k)).map (fun p => p.2)

/-- The walrus condition of the relabel check: `relabel and (new_label :=
label_remap.get(...)) is not None and torrent.label != new_label`. -/
def relabelTarget (cfg : SyncCfg) (t : Torrent) : Option String :=
  if cfg.relabel then
    match lookupStr cfg.labelRemap t.tracker_alias with
    | some nl => if t.label ≠ nl then some nl else none
    | none => none
  else none

/-- The trailing move check: `if move and expected_path and
torrent.download_location != expected_path`. -/
def moveCheck (cfg : SyncCfg) (dry : Bool) (st : SyncSt) (t : Torrent) : SyncSt :=
  match lookupStr cfg.pathMap t.tracker_alias with
  | some p =>
      if cfg.move ∧ t.download_location ≠ p then
        { st with moves := st.moves ++ [(t.id, p)],
                  calls := st.calls ++ (if dry then [] else [Call.moveC t.id p]) }
      else st
  | none => st

/-- One iteration of the `for torrent in torrents.values()` loop of
`sync`.  A hit of the relabel check sets `changed_label`, which falsifies
the removal condition, but the loop has no `continue` there, so the move
check still runs; a hit of the removal check appends to `to_remove` and
`continue`s past the move check.  `_check_torrent` is only reached when
the earlier conjuncts hold (its formula errors abort the pass). -/
def syncStep (cfg : SyncCfg) (rules : HostMap) (canRemove : List String)
    (dry : Bool) (st : SyncSt) (t : Torrent) : Except SyncErr SyncSt :=
  match relabelTarget cfg t with
  | some nl =>
      let st' := { st with
        relabels := st.relabels ++ [(t.id, nl)],
        calls := st.calls ++ (if dry then [] else [Call.relabelC t.id nl]) }
      .ok (moveCheck cfg dry st' t)
  | none =>
      if cfg.remove ∧ t.id ∈ canRemove then
        match checkTorrent t (lookupHost rules t.tracker_alias)
            cfg.defaultSeedTime cfg.seedBuffer with
        | .error e => .error e
        | .ok true => .ok { st with toRemove := st.toRemove ++ [t.id] }
        | .ok false => .ok (moveCheck cfg dry st t)
      else .ok (moveCheck cfg dry st t)

/-- `_remove_torrents`: iterate `to_remove` in the order received (the
source performs no reversal) and issue a removal per id unless dry. -/
def removeCalls (dry : Bool) (toRemove : List String) : List Call :=
  if dry then [] else toRemove.map Call.removeC

/-- The planning-and-execution pass of `sync` from the point the snapshot
and compiled rules are in hand: compute `can_remove` (once, before the
loop — `filterOutKeep` is pure, so inlining it is equivalent), run the
per-torrent loop, then hand `to_remove` to `_remove_torrents`. -/
def syncPass (cfg : SyncCfg) (rules : HostMap) (dry : Bool)
    (torrents : List Torrent) : Except SyncErr SyncSt :=
  match torrents.foldlM
      (syncStep cfg rules (filterOutKeep torrents rules) dry) ⟨[], [], [], []⟩ with
  | .ok st => .ok { st with calls := st.calls ++ removeCalls dry st.toRemove }
  | .error e => .error e

/-- The decision content of a pass: relabel, move and removal actions,
without the issued calls. -/
def planOf (st : SyncSt) : List (String × String) × List (String × String) × List String :=
  (st.relabels, st.moves, st.toRemove)

/-- Recognizer for removal calls. -/
def isRemoveCall : Call → Bool
  | .removeC _ => true
  | _ => false

/-! ## Theorems -/

instance : IsTotal Torrent descWanted :=
  ⟨fun a b => Nat.le_total b.total_wanted a.total_wanted⟩

instance : IsTrans Torrent descWanted :=
  ⟨fun _ _ _ h1 h2 => Nat.le_trans h2 h1⟩

instance : IsTotal TrackerRule ascPriority :=
  ⟨fun a b => Int.le_total a.priority b.priority⟩

instance : IsTrans TrackerRule ascPriority :=
  ⟨fun _ _ _ h1 h2 => Int.le_trans h1 h2⟩

theorem sorted_sortDescWanted (ts : List Torrent) :
    List.Sorted descWanted (sortDescWanted ts) :=
  List.sorted_insertionSort descWanted ts

theorem length_sortDescWanted (ts : List Torrent) :
    (sortDescWanted ts).length = ts.length :=
  (List.perm_insertionSort descWanted ts).length_eq

theorem sorted_sortAscPriority (rs : List TrackerRule) :
    List.Sorted ascPriority (sortAscPriority rs) :=
  List.sorted_insertionSort ascPriority rs

/-- Claim C8: for a tracker group whose rule-zero has `keepCount = N`
(`N ≥ 1`), the eligible torrents are exactly the sorted group with its
first `N` entries dropped; in particular no torrent is eligible when the
group has at most `N` torrents, and every eligible torrent's
`total_wanted` is at most that of every exempt torrent. -/
theorem filterGroup_keep_count (ruleZero : TrackerRule) (rest : List TrackerRule)
    (g : List Torrent) (N : ℕ) (hkc : ruleZero.keep_count = some N) (hN : 1 ≤ N) :
    filterGroup (ruleZero :: rest) g = (sortDescWanted g).drop N
    ∧ (g.length ≤ N → filterGroup (ruleZero :: rest) g = [])
    ∧ ∀ x ∈ filterGroup (ruleZero :: rest) g, ∀ y ∈ (sortDescWanted g).take N,
        x.total_wanted ≤ y.total_wanted := by
  have hv : optTruthy (some N) = true := by
    simp [optTruthy]; omega
  have hmain : filterGroup (ruleZero :: rest) g = (sortDescWanted g).drop N := by
    simp only [filterGroup, hkc, Option.getD_some]
    rw [if_neg (fun h => h.1 hv), if_pos hv]
    by_cases hlen : (sortDescWanted g).length < N
    · rw [if_pos hlen]
      exact (List.drop_eq_nil_of_le (Nat.le_of_lt hlen)).symm
    · rw [if_neg hlen]
  refine ⟨hmain, fun hle => ?_, fun x hx y hy => ?_⟩
  · rw [hmain]
    exact List.drop_eq_nil_of_le (by rw [length_sortDescWanted]; exact hle)
  · rw [hmain] at hx
    have hpw : List.Pairwise descWanted ((sortDescWanted g).take N ++ (sortDescWanted g).drop N) := by
      rw [List.take_append_drop]
      exact sorted_sortDescWanted g
    exact (List.pairwise_append.mp hpw).2.2 y hy x hx

/-- Witness for C8: a group of three torrents with `keepCount = 2` keeps
the two largest and leaves the smallest eligible. -/
theorem filterGroup_keep_count_witness :
    filterGroup
      [{ host := "t", priority := 10, min_time := 864000, keep_count := some 2 }]
      [⟨"1", "n1", "l", "h", "t", 0, "/d", 6442450944⟩,
       ⟨"2", "n2", "l", "h", "t", 0, "/d", 6442450944⟩,
       ⟨"3", "n3", "l", "h", "t", 0, "/d", 1073741824⟩]
    = (sortDescWanted
      [⟨"1", "n1", "l", "h", "t", 0, "/d", 6442450944⟩,
       ⟨"2", "n2", "l", "h", "t", 0, "/d", 6442450944⟩,
       ⟨"3", "n3", "l", "h", "t", 0, "/d", 1073741824⟩]).drop 2 :=
  (filterGroup_keep_count _ [] _ 2 rfl (by norm_num)).1

/-- Counterexample to claim C1: with sizes `[6, 6, 1]` GiB and
`keepSize = 10`, the source leaves only torrent 3 eligible — the second
torrent (the one that pushes the cumulative total over 10) is exempt,
because `_get_under_size` returns `torrents[index + 1 :]`. -/
theorem filterGroup_keep_size_counterexample :
    (filterGroup
      [{ host := "t", priority := 10, min_time := 864000, keep_size := some 10 }]
      [⟨"1", "n1", "l", "h", "t", 0, "/d", 6442450944⟩,
       ⟨"2", "n2", "l", "h", "t", 0, "/d", 6442450944⟩,
       ⟨"3", "n3", "l", "h", "t", 0, "/d", 1073741824⟩]).map Torrent.id = ["3"]
    ∧ "2" ∉ (filterGroup
      [{ host := "t", priority := 10, min_time := 864000, keep_size := some 10 }]
      [⟨"1", "n1", "l", "h", "t", 0, "/d", 6442450944⟩,
       ⟨"2", "n2", "l", "h", "t", 0, "/d", 6442450944⟩,
       ⟨"3", "n3", "l", "h", "t", 0, "/d", 1073741824⟩]).map Torrent.id := by
  norm_num [filterGroup, optTruthy, sortDescWanted, List.insertionSort,
    List.orderedInsert, descWanted, getUnderSize, getUnderSizeGo, sizeGiB]
  decide

theorem getUnderSizeGo_eq_crossCount (S : ℚ) (acc : ℚ) (l : List Torrent) :
    (getUnderSizeGo S acc l).2 = (crossCount S acc l).map (fun j => l.drop j) := by
  induction l generalizing acc with
  | nil => rfl
  | cons t rest ih =>
      simp only [getUnderSizeGo, crossCount]
      by_cases h : acc + sizeGiB t.total_wanted > S
      · simp [h]
      · simp only [h, if_false]
        rw [ih]
        cases crossCount S (acc + sizeGiB t.total_wanted) rest <;>
          simp [List.drop_succ_cons]

/-- Claim C1 as amended: for a tracker group whose rule-zero has
`keepSize = S` (`S ≥ 1`, no keep-count), the eligible torrents are those
strictly *after* the first torrent that pushes the cumulative GiB total
over `S`; the crossing torrent itself is exempt along with the maximal
prefix staying at or under `S`, and nothing is eligible when the total
never exceeds `S`. -/
theorem filterGroup_keep_size (ruleZero : TrackerRule) (rest : List TrackerRule)
    (g : List Torrent) (S : ℕ) (hks : ruleZero.keep_size = some S) (hS : 1 ≤ S)
    (hkc : ruleZero.keep_count = none) :
    filterGroup (ruleZero :: rest) g =
      (match crossCount (S : ℚ) 0 (sortDescWanted g) with
       | none => []
       | some j => (sortDescWanted g).drop j) := by
  have hvs : optTruthy (some S) = true := by
    simp [optTruthy]; omega
  simp only [filterGroup, hks, hkc, Option.getD_some]
  rw [if_neg (fun h => h.2 hvs), if_neg (by simp [optTruthy])]
  rw [show (getUnderSize (sortDescWanted g) (S : ℚ)).2
      = (crossCount (S : ℚ) 0 (sortDescWanted g)).map
          (fun j => (sortDescWanted g).drop j) from
    getUnderSizeGo_eq_crossCount _ 0 _]
  cases crossCount (S : ℚ) 0 (sortDescWanted g) with
  | none => rfl
  | some j =>
      simp only [Option.map_some']
      cases hdrop : (sortDescWanted g).drop j with
      | nil => simp [hdrop]
      | cons a as => simp [hdrop]

/-- Witness for the amended C1: at sizes `[6, 6, 1]` GiB and `S = 10` the
crossing position is 2, so exactly the torrents after position 2 (torrent
3 alone) are eligible. -/
theorem filterGroup_keep_size_witness :
    filterGroup
      [{ host := "t", priority := 10, min_time := 864000, keep_size := some 10 }]
      [⟨"1", "n1", "l", "h", "t", 0, "/d", 6442450944⟩,
       ⟨"2", "n2", "l", "h", "t", 0, "/d", 6442450944⟩,
       ⟨"3", "n3", "l", "h", "t", 0, "/d", 1073741824⟩]
    = (match crossCount ((10 : ℕ) : ℚ) 0 (sortDescWanted
        [⟨"1", "n1", "l", "h", "t", 0, "/d", 6442450944⟩,
         ⟨"2", "n2", "l", "h", "t", 0, "/d", 6442450944⟩,
         ⟨"3", "n3", "l", "h", "t", 0, "/d", 1073741824⟩]) with
       | none => []
       | some j => (sortDescWanted
        [⟨"1", "n1", "l", "h", "t", 0, "/d", 6442450944⟩,
         ⟨"2", "n2", "l", "h", "t", 0, "/d", 6442450944⟩,
         ⟨"3", "n3", "l", "h", "t", 0, "/d", 1073741824⟩]).drop j) :=
  filterGroup_keep_size _ [] _ 10 rfl (by norm_num) rfl

theorem overlayKeepCount_priority (base : TrackerRule) (rs : List TrackerRule) :
    (overlayKeepCount base rs).priority = base.priority := by
  induction rs generalizing base with
  | nil => rfl
  | cons r rest ih =>
      show (overlayKeepCount
        (if optTruthy r.keep_count = true then { base with keep_count := r.keep_count }
         else base) rest).priority = base.priority
      rw [ih]
      split <;> rfl

theorem compileHost_sorted (rs out : List TrackerRule) (hok : compileHost rs = .ok out) :
    List.Pairwise ascPriority out ∧ ∀ r ∈ out, 1 ≤ r.priority := by
  unfold compileHost at hok
  split at hok
  case _ hsort =>
      cases hok
      simp
  case _ r0 rest hsort =>
      have hs : List.Sorted ascPriority (r0 :: rest) := hsort ▸ sorted_sortAscPriority rs
      by_cases h1 : r0.priority < 1
      · rw [if_pos h1] at hok
        exact absurd hok (by simp)
      · rw [if_neg h1] at hok
        have hp0 : 1 ≤ r0.priority := by omega
        have hall : ∀ r ∈ r0 :: rest, 1 ≤ r.priority := by
          intro r hr
          rcases List.mem_cons.mp hr with rfl | hr
          · exact hp0
          · exact le_trans hp0 ((List.pairwise_cons.mp hs).1 r hr)
        by_cases h2 : rest.isEmpty = true
        · rw [if_pos h2] at hok
          cases hok
          exact ⟨hs, hall⟩
        · rw [if_neg h2] at hok
          by_cases h3 : optTruthy (overlayKeepCount r0 (r0 :: rest)).keep_count = true
              ∨ optTruthy (overlayKeepCount r0 (r0 :: rest)).keep_size = true
          · rw [if_pos h3] at hok
            by_cases h4 : optTruthy (overlayKeepCount r0 (r0 :: rest)).keep_count = true
                ∧ optTruthy (overlayKeepCount r0 (r0 :: rest)).keep_size = true
            · rw [if_pos h4] at hok
              exact absurd hok (by simp)
            · rw [if_neg h4] at hok
              cases hok
              have hpz : (overlayKeepCount r0 (r0 :: rest)).priority = r0.priority :=
                overlayKeepCount_priority r0 (r0 :: rest)
              constructor
              · refine List.pairwise_cons.mpr ⟨?_, hs⟩
                intro x hx
                rcases List.mem_cons.mp hx with rfl | hx
                · exact le_of_eq hpz
                · exact le_trans (le_of_eq hpz) ((List.pairwise_cons.mp hs).1 x hx)
              · intro r hr
                rcases List.mem_cons.mp hr with rfl | hr
                · rw [hpz]; exact hp0
                · exact hall r hr
          · rw [if_neg h3] at hok
            cases hok
            exact ⟨hs, hall⟩

theorem compileAll_entries (m out : HostMap) (hok : compileAll m = .ok out) :
    ∀ p ∈ out, ∃ rs, compileHost rs = .ok p.2 := by
  suffices hgen : ∀ (m acc out : HostMap),
      (∀ p ∈ acc, ∃ rs, compileHost rs = .ok p.2) →
      m.foldlM (fun acc p =>
        match compileHost p.2 with
        | .ok c => Except.ok (acc ++ [(p.1, c)])
        | .error e => .error e) acc = .ok out →
      ∀ p ∈ out, ∃ rs, compileHost rs = .ok p.2 by
    exact hgen m [] out (by simp) hok
  intro m
  induction m with
  | nil =>
      intro acc out hacc hfold
      cases hfold
      exact hacc
  | cons q rest ih =>
      intro acc out hacc hfold
      rw [List.foldlM_cons] at hfold
      cases hc : compileHost q.2 with
      | error e =>
          rw [hc] at hfold
          have hfold' : (Except.error e : Except SyncErr HostMap) = .ok out := hfold
          cases hfold'
      | ok c =>
          rw [hc] at hfold
          have hfold' : rest.foldlM (fun acc p =>
              match compileHost p.2 with
              | .ok c => Except.ok (acc ++ [(p.1, c)])
              | .error e => .error e) (acc ++ [(q.1, c)]) = .ok out := hfold
          refine ih (acc ++ [(q.1, c)]) out ?_ hfold'
          intro p hp
          rcases List.mem_append.mp hp with hp | hp
          · exact hacc p hp
          · rcases List.mem_singleton.mp hp with rfl
            exact ⟨q.2, hc⟩

/-- Claim C3 as amended: for every successfully compiled rule table, the
chain handed to the Seed-Time Evaluator (`rules.get(alias, [])` — the
*full* per-host chain, including the synthesized retention rule when one
was prepended) is sorted non-strictly ascending by priority, and every
entry, the synthesized one included, has priority ≥ 1 (the synthesized
rule keeps the copied priority of the lowest-priority entry rather than
priority 0, so duplicate priorities occur whenever it is present). -/
theorem compiled_chain_ascending (m out : HostMap) (h : String)
    (hok : compileAll m = .ok out) :
    List.Pairwise ascPriority (lookupHost out h)
    ∧ ∀ r ∈ lookupHost out h, 1 ≤ r.priority := by
  unfold lookupHost
  cases hf : out.find? (fun p => p.1 = h) with
  | none => simp
  | some p =>
      simp only [Option.map_some', Option.getD_some]
      obtain ⟨rs, hrs⟩ := compileAll_entries m out hok p (List.mem_of_find?_eq_some hf)
      exact compileHost_sorted rs p.2 hrs

/-- Witness for the amended C3 at a two-rule host whose higher-priority
rule carries a keep-count, forcing the synthetic retention rule in. -/
theorem compiled_chain_ascending_witness :
    List.Pairwise ascPriority
      (lookupHost
        [("t", [{ host := "t", priority := 1, min_time := 86400,
                  keep_count := some 5 },
                { host := "t", priority := 1, min_time := 86400 },
                { host := "t", priority := 2, min_time := 172800,
                  keep_count := some 5 }])] "t")
    ∧ ∀ r ∈ lookupHost
        [("t", [{ host := "t", priority := 1, min_time := 86400,
                  keep_count := some 5 },
                { host := "t", priority := 1, min_time := 86400 },
                { host := "t", priority := 2, min_time := 172800,
                  keep_count := some 5 }])] "t", 1 ≤ r.priority :=
  compiled_chain_ascending
    [("t", [{ host := "t", priority := 1, min_time := 86400 },
            { host := "t", priority := 2, min_time := 172800,
              keep_count := some 5 }])]
    _ "t" (by rfl)

/-- Counterexample to claim C3: compiling a host with rules of priorities
1 and 2 where the second declares `keep_count = 5` yields a consulted
chain with priorities `[1, 1, 2]` — it contains the synthesized retention
rule (three entries, not two) and is not strictly ascending. -/
theorem compiled_chain_counterexample :
    (compileAll [("t", [{ host := "t", priority := 1, min_time := 86400 },
                        { host := "t", priority := 2, min_time := 172800,
                          keep_count := some 5 }])]).map
        (fun m => (lookupHost m "t").map TrackerRule.priority)
      = .ok [1, 1, 2]
    ∧ ¬ List.Pairwise (fun a b : ℤ => a < b) [1, 1, 2] := by
  constructor
  · rfl
  · intro hpw
    exact absurd ((List.pairwise_cons.mp hpw).1 1 (by simp)) (by norm_num)

theorem addToGroup_rule_mem (m : HostMap) (r0 : TrackerRule)
    (p : String × List TrackerRule) (hp : p ∈ addToGroup m r0)
    (x : TrackerRule) (hx : x ∈ p.2) :
    (∃ q ∈ m, x ∈ q.2) ∨ x = r0 := by
  unfold addToGroup at hp
  by_cases h : m.any (fun q => q.1 = r0.host)
  · rw [if_pos h] at hp
    obtain ⟨q, hq, hqe⟩ := List.mem_map.mp hp
    by_cases h2 : q.1 = r0.host
    · rw [if_pos h2] at hqe
      subst hqe
      rcases List.mem_append.mp hx with hx | hx
      · exact .inl ⟨q, hq, hx⟩
      · exact .inr (List.mem_singleton.mp hx)
    · rw [if_neg h2] at hqe
      subst hqe
      exact .inl ⟨q, hq, hx⟩
  · rw [if_neg h] at hp
    rcases List.mem_append.mp hp with hp | hp
    · exact .inl ⟨p, hp, hx⟩
    · rcases List.mem_singleton.mp hp with rfl
      exact .inr (List.mem_singleton.mp hx)

theorem groupByHost_rule_mem (rs : List TrackerRule)
    (p : String × List TrackerRule) (hp : p ∈ groupByHost rs)
    (x : TrackerRule) (hx : x ∈ p.2) : x ∈ rs := by
  suffices hgen : ∀ (rs : List TrackerRule) (acc : HostMap)
      (P : TrackerRule → Prop),
      (∀ q ∈ acc, ∀ y ∈ q.2, P y) → (∀ r ∈ rs, P r) →
      ∀ q ∈ rs.foldl addToGroup acc, ∀ y ∈ q.2, P y by
    exact hgen rs [] (· ∈ rs) (by simp) (fun _ h => h) p hp x hx
  intro rs
  induction rs with
  | nil =>
      intro acc P hacc _ q hq y hy
      exact hacc q hq y hy
  | cons r rest ih =>
      intro acc P hacc hrs q hq y hy
      refine ih (addToGroup acc r) P ?_ (fun s hs => hrs s (List.mem_cons_of_mem r hs)) q hq y hy
      intro q' hq' y' hy'
      rcases addToGroup_rule_mem acc r q' hq' y' hy' with ⟨q'', hq'', hy''⟩ | rfl
      · exact hacc q'' hq'' y' hy''
      · exact hrs _ (List.mem_cons_self _ _)

theorem addToGroup_ne_nil (m : HostMap) (r : TrackerRule) : addToGroup m r ≠ [] := by
  unfold addToGroup
  split
  · intro hc
    rename_i h
    rw [List.map_eq_nil_iff] at hc
    subst hc
    simp at h
  · simp

theorem foldl_addToGroup_ne_nil (rest : List TrackerRule) :
    ∀ acc0 : HostMap, acc0 ≠ [] → rest.foldl addToGroup acc0 ≠ [] := by
  induction rest with
  | nil => intro acc0 h; simpa using h
  | cons s srest ih =>
      intro acc0 _
      exact ih (addToGroup acc0 s) (addToGroup_ne_nil acc0 s)

theorem groupByHost_ne_nil (l : List TrackerRule) (hl : l ≠ []) :
    groupByHost l ≠ [] := by
  cases l with
  | nil => exact absurd rfl hl
  | cons r rest =>
      exact foldl_addToGroup_ne_nil rest (addToGroup [] r) (addToGroup_ne_nil [] r)

/-- Claim C9 as amended: a present override that decodes to at least one
rule replaces the built-in default table wholesale — every rule of the
selected table comes from the override — and an absent override selects
the defaults; an override decoding to *zero* rules, however, also falls
back to the defaults (Python's `or` discards the empty dict). -/
theorem ruleSource_override (l : List TrackerRule) (hl : l ≠ []) :
    ruleSource (some l) = groupByHost l
    ∧ (∀ h r, r ∈ lookupHost (ruleSource (some l)) h → r ∈ l)
    ∧ ruleSource none = getDefaultRules := by
  have h1 : ruleSource (some l) = groupByHost l := by
    unfold ruleSource getEnvRules
    simp only [Option.map_some']
    rw [if_neg]
    intro hc
    exact groupByHost_ne_nil l hl (List.isEmpty_iff.mp hc)
  refine ⟨h1, fun h r hr => ?_, rfl⟩
  rw [h1] at hr
  unfold lookupHost at hr
  cases hf : (groupByHost l).find? (fun p => p.1 = h) with
  | none => rw [hf] at hr; simp at hr
  | some p =>
      rw [hf] at hr
      simp only [Option.map_some', Option.getD_some] at hr
      exact groupByHost_rule_mem l p (List.mem_of_find?_eq_some hf) r hr

/-- Witness for the amended C9: a one-rule override is selected verbatim. -/
theorem ruleSource_override_witness :
    ruleSource (some [{ host := "t", priority := 1, min_time := 86400 }])
      = groupByHost [{ host := "t", priority := 1, min_time := 86400 }] :=
  (ruleSource_override [{ host := "t", priority := 1, min_time := 86400 }]
    (by simp)).1

/-- Counterexample to claim C9: with the override present but decoding to
an empty list (`DELUGE_SYNC_RULES="[]"`), the selected table is the
built-in default table — a default rule (for `avistaz.to`) contributes
even though an override is present. -/
theorem ruleSource_empty_override_counterexample :
    ruleSource (some []) = getDefaultRules
    ∧ (lookupHost (ruleSource (some [])) "avistaz.to").length = 1 := by
  exact ⟨rfl, rfl⟩

/-- Claim C10: a single-element list value is comma-split before use (both
by `_convert_to_dict` and by the label normalization in `sync`), and a
list of two or more elements is used as-is with no comma-splitting. -/
theorem convert_single_comma_split :
    (∀ s, convertToDict [s] = convertCore (s.splitOn ",")
      ∧ normalizeLabels [s] = s.splitOn ",")
    ∧ ∀ items : List String, 2 ≤ items.length →
        convertToDict items = convertCore items ∧ normalizeLabels items = items := by
  refine ⟨fun s => ⟨rfl, rfl⟩, fun items h2 => ?_⟩
  cases items with
  | nil => simp at h2
  | cons a t =>
      cases t with
      | nil => simp at h2
      | cons b t' => exact ⟨rfl, rfl⟩

/-- Witness for C10: a two-element list is processed without splitting. -/
theorem convert_single_comma_split_witness :
    convertToDict ["a=1", "b=2"] = convertCore ["a=1", "b=2"]
    ∧ normalizeLabels ["a=1", "b=2"] = ["a=1", "b=2"] :=
  convert_single_comma_split.2 ["a=1", "b=2"] (by norm_num)

/-- Claim C5: every torrent returned by the (spec-modelled) snapshot fetch
has its tracker alias already resolved through the supplied alias-remap
mapping; rule lookup in the planner keys on this `tracker_alias` field
(`rules.get(torrent.tracker_alias, [])` in `syncStep`). -/
theorem getTorrents_alias_resolved (ex : List String)
    (al : List (String × String)) (raw : List RawTorrent) :
    ∀ t ∈ getTorrents ex al raw, t.tracker_alias = resolveAlias al t.tracker_host := by
  intro t ht
  obtain ⟨r, _, rfl⟩ := List.mem_map.mp ht
  rfl

/-- Witness for C5 at the default alias-remap entry. -/
theorem getTorrents_alias_resolved_witness :
    (mkTorrent [("tleechreload.org", "torrentleech.org")]
      ⟨"x", "n", "l", "tleechreload.org", 100, "/d", 1⟩).tracker_alias
    = resolveAlias [("tleechreload.org", "torrentleech.org")]
        (mkTorrent [("tleechreload.org", "torrentleech.org")]
          ⟨"x", "n", "l", "tleechreload.org", 100, "/d", 1⟩).tracker_host :=
  getTorrents_alias_resolved [] [("tleechreload.org", "torrentleech.org")]
    [⟨"x", "n", "l", "tleechreload.org", 100, "/d", 1⟩] _ (by simp [getTorrents])

theorem applyOp_error_eq (op : PyOp) (a b : PyVal) (e : SyncErr)
    (h : applyOp op a b = .error e) : e = .evalError := by
  unfold applyOp at h
  split at h <;> first
    | simp_all
    | (split at h <;> simp_all)

mutual
theorem evalF_error_eq : ∀ (f : FNode) (e : SyncErr), evalF f = .error e → e = .evalError
  | .constNum _, _, h => by simp [evalF] at h
  | .constStr _, _, h => by simp [evalF] at h
  | .name s, e, h => by
      unfold evalF at h
      split_ifs at h <;> simp_all
  | .attr v fld, e, h => by
      unfold evalF at h
      split at h
      · split_ifs at h <;> simp_all
      · simp_all
      · rename_i e' heq
        cases h
        exact evalF_error_eq v _ heq
  | .call fn kwargs, e, h => by
      unfold evalF at h
      split at h
      · split at h
        · simp_all
        · rename_i e' heq
          cases h
          exact evalKw_error_eq kwargs _ heq
      · simp_all
      · rename_i e' heq
        cases h
        exact evalF_error_eq fn _ heq
  | .binop op l r, e, h => by
      unfold evalF at h
      split at h
      · rename_i e' heq
        cases h
        exact evalF_error_eq l _ heq
      · rename_i a heqa
        split at h
        · rename_i e' heq
          cases h
          exact evalF_error_eq r _ heq
        · rename_i b heqb
          exact applyOp_error_eq op a b e h
  | .unaryMinus v, e, h => by
      unfold evalF at h
      split at h <;> try simp_all
      rename_i e' heq
      cases h
      exact evalF_error_eq v _ heq
  | .varMin, e, h => by simp [evalF] at h; simp [h]
  | .varSize, e, h => by simp [evalF] at h; simp [h]
  | .varBuffer, e, h => by simp [evalF] at h; simp [h]

theorem evalKw_error_eq : ∀ (k : FKwargs) (e : SyncErr), evalKw k = .error e → e = .evalError
  | .nil, _, h => by simp [evalKw] at h
  | .cons key v rest, e, h => by
      unfold evalKw at h
      split at h
      · split at h
        · split at h
          · simp_all
          · rename_i e' heq
            cases h
            exact evalKw_error_eq rest _ heq
        · simp_all
      · simp_all
      · rename_i e' heq
        cases h
        exact evalF_error_eq v _ heq
end

mutual
theorem specGrammar_all : ∀ (f : FNode), specGrammar f = true → (walkKinds f).all wlKind = true
  | .constNum _, _ => rfl
  | .constStr _, h => Bool.noConfusion h
  | .name _, _ => rfl
  | .attr v _, h => by
      unfold specGrammar at h
      simp only [Bool.and_eq_true] at h
      simp only [walkKinds, List.all_cons, Bool.and_eq_true]
      exact ⟨rfl, rfl, specGrammar_all v h.1⟩
  | .call fn kwargs, h => by
      unfold specGrammar at h
      simp only [Bool.and_eq_true] at h
      simp only [walkKinds, List.all_cons, List.all_append, Bool.and_eq_true]
      exact ⟨rfl, specGrammar_all fn h.1, specGrammarKw_all kwargs h.2⟩
  | .binop op l r, h => by
      unfold specGrammar at h
      simp only [Bool.and_eq_true] at h
      simp only [walkKinds, List.all_cons, List.all_append, Bool.and_eq_true]
      exact ⟨rfl, rfl, specGrammar_all l h.1.2, specGrammar_all r h.2⟩
  | .unaryMinus _, h => Bool.noConfusion h
  | .varMin, _ => rfl
  | .varSize, _ => rfl
  | .varBuffer, _ => rfl

theorem specGrammarKw_all : ∀ (k : FKwargs), specGrammarKw k = true → (walkKindsKw k).all wlKind = true
  | .nil, _ => rfl
  | .cons _ v rest, h => by
      unfold specGrammarKw at h
      simp only [Bool.and_eq_true] at h
      simp only [walkKindsKw, List.all_cons, List.all_append, Bool.and_eq_true]
      exact ⟨rfl, specGrammar_all v h.1, specGrammarKw_all rest h.2⟩
end

/-- Claim C6 as amended: formula handling raises `InvalidFormula` exactly
when the AST contains a node kind outside `_AST_WHITELIST`; every formula
inside the spec's restricted grammar is whitelisted (and so never raises
`InvalidFormula`), but the converse fails — the whitelist admits *every*
binary operator because it contains the `ast.operator` base class, so
formulas outside the grammar (subtraction, division, ...) do not raise
`InvalidFormula`. -/
theorem formula_invalid_iff (f : FNode) :
    (parseFormula f = .error .invalidFormula ↔ pyValid f = false)
    ∧ (specGrammar f = true → pyValid f = true) := by
  refine ⟨⟨fun h => ?_, fun h => ?_⟩, fun h => ?_⟩
  · by_contra hv
    have hv' : pyValid f = true := by revert hv; cases pyValid f <;> simp
    unfold parseFormula at h
    rw [if_neg (by simp [hv'])] at h
    cases he : evalF f with
    | ok v => rw [he] at h; cases v <;> simp_all
    | error e =>
        rw [he] at h
        have := evalF_error_eq f e he
        simp_all
  · unfold parseFormula
    rw [if_pos (by simp [h])]
  · unfold pyValid
    simp only [List.all_cons, Bool.and_eq_true]
    exact ⟨rfl, specGrammar_all f h⟩

/-- Witness for the amended C6: the substituted default buffered-size
formula is inside the restricted grammar and passes the whitelist. -/
theorem formula_invalid_iff_witness :
    pyValid (substFormula bufferedSizeFormula 259200 12 (11 / 10)) = true :=
  (formula_invalid_iff (substFormula bufferedSizeFormula 259200 12 (11 / 10))).2 (by rfl)

/-- Counterexample to claim C6: a subtraction of two durations lies
outside the spec's restricted grammar (`-` is not `+` or `*`), yet it
does not fail with `InvalidFormula` — it validates and even evaluates to
a duration, because `_AST_WHITELIST` admits every `ast.operator`. -/
theorem formula_grammar_counterexample :
    specGrammar (FNode.binop .sub
      (.call (.name "timedelta") (.cons "days" (.constNum 2) .nil))
      (.call (.name "timedelta") (.cons "days" (.constNum 1) .nil))) = false
    ∧ parseFormula (FNode.binop .sub
      (.call (.name "timedelta") (.cons "days" (.constNum 2) .nil))
      (.call (.name "timedelta") (.cons "days" (.constNum 1) .nil))) = .ok 86400 := by
  refine ⟨rfl, ?_⟩
  have he : evalF (FNode.binop .sub
      (.call (.name "timedelta") (.cons "days" (.constNum 2) .nil))
      (.call (.name "timedelta") (.cons "days" (.constNum 1) .nil))) = .ok (.dur 86400) := by
    simp only [evalF, evalKw, applyOp, tdSeconds]
    norm_num
  have hv : pyValid (FNode.binop .sub
      (.call (.name "timedelta") (.cons "days" (.constNum 2) .nil))
      (.call (.name "timedelta") (.cons "days" (.constNum 1) .nil))) = true := rfl
  unfold parseFormula
  rw [if_neg (not_not_intro hv), he]

theorem exceptBind_ok {α β : Type} (a : α) (f : α → Except SyncErr β) :
    (Except.ok a >>= f) = f a := rfl

theorem exceptBind_error {α β : Type} (e : SyncErr) (f : α → Except SyncErr β) :
    ((Except.error e : Except SyncErr α) >>= f) = .error e := rfl

theorem moveCheck_relabels (cfg : SyncCfg) (dry : Bool) (st : SyncSt) (t : Torrent) :
    (moveCheck cfg dry st t).relabels = st.relabels := by
  unfold moveCheck
  split
  · split <;> rfl
  · rfl

theorem moveCheck_toRemove (cfg : SyncCfg) (dry : Bool) (st : SyncSt) (t : Torrent) :
    (moveCheck cfg dry st t).toRemove = st.toRemove := by
  unfold moveCheck
  split
  · split <;> rfl
  · rfl

theorem moveCheck_calls_dry (cfg : SyncCfg) (st : SyncSt) (t : Torrent) :
    (moveCheck cfg true st t).calls = st.calls := by
  unfold moveCheck
  split
  · split
    · simp
    · rfl
  · rfl

theorem moveCheck_calls_filter (cfg : SyncCfg) (dry : Bool) (st : SyncSt) (t : Torrent) :
    (moveCheck cfg dry st t).calls.filter isRemoveCall
      = st.calls.filter isRemoveCall := by
  unfold moveCheck
  split
  · split
    · cases dry <;> simp [isRemoveCall, List.filter_append]
    · rfl
  · rfl

theorem moveCheck_plan_congr (cfg : SyncCfg) (d d' : Bool) (st st' : SyncSt) (t : Torrent)
    (h1 : st.relabels = st'.relabels) (h2 : st.moves = st'.moves)
    (h3 : st.toRemove = st'.toRemove) :
    (moveCheck cfg d st t).relabels = (moveCheck cfg d' st' t).relabels
    ∧ (moveCheck cfg d st t).moves = (moveCheck cfg d' st' t).moves
    ∧ (moveCheck cfg d st t).toRemove = (moveCheck cfg d' st' t).toRemove := by
  cases hl : lookupStr cfg.pathMap t.tracker_alias with
  | none =>
      unfold moveCheck
      simp [hl, h1, h2, h3]
  | some p =>
      unfold moveCheck
      simp only [hl]
      by_cases hc : cfg.move = true ∧ ¬ t.download_location = p
      · rw [if_pos hc, if_pos hc]
        exact ⟨h1, by simp [h2], h3⟩
      · rw [if_neg hc, if_neg hc]
        exact ⟨h1, h2, h3⟩

theorem syncStep_cases (cfg : SyncCfg) (rules : HostMap) (cr : List String)
    (dry : Bool) (st : SyncSt) (t : Torrent) (a : SyncSt)
    (h : syncStep cfg rules cr dry st t = .ok a) :
    ((∃ nl, a.relabels = st.relabels ++ [(t.id, nl)]) ∧ a.toRemove = st.toRemove)
    ∨ (a.relabels = st.relabels ∧ a.toRemove = st.toRemove ++ [t.id])
    ∨ (a.relabels = st.relabels ∧ a.toRemove = st.toRemove) := by
  unfold syncStep at h
  cases hrt : relabelTarget cfg t with
  | some nl =>
      simp only [hrt] at h
      cases h
      exact .inl ⟨⟨nl, by rw [moveCheck_relabels]⟩, by rw [moveCheck_toRemove]⟩
  | none =>
      simp only [hrt] at h
      by_cases hc : cfg.remove = true ∧ t.id ∈ cr
      · rw [if_pos hc] at h
        cases hck : checkTorrent t (lookupHost rules t.tracker_alias)
            cfg.defaultSeedTime cfg.seedBuffer with
        | error e =>
            simp only [hck] at h
            cases h
        | ok bv =>
            simp only [hck] at h
            cases bv
            · cases h
              exact .inr (.inr ⟨moveCheck_relabels _ _ _ _, moveCheck_toRemove _ _ _ _⟩)
            · cases h
              exact .inr (.inl ⟨rfl, rfl⟩)
      · rw [if_neg hc] at h
        cases h
        exact .inr (.inr ⟨moveCheck_relabels _ _ _ _, moveCheck_toRemove _ _ _ _⟩)

theorem syncLoop_relabel_not_removed (cfg : SyncCfg) (rules : HostMap)
    (cr : List String) (dry : Bool) :
    ∀ (ts : List Torrent) (st out : SyncSt),
    (∀ p ∈ st.relabels, p.1 ∉ st.toRemove) →
    (∀ t ∈ ts, ∀ p ∈ st.relabels, p.1 ≠ t.id) →
    (∀ t ∈ ts, t.id ∉ st.toRemove) →
    (ts.map Torrent.id).Nodup →
    ts.foldlM (syncStep cfg rules cr dry) st = .ok out →
    ∀ p ∈ out.relabels, p.1 ∉ out.toRemove := by
  intro ts
  induction ts with
  | nil =>
      intro st out inv1 _ _ _ hfold
      cases hfold
      exact inv1
  | cons t ts ih =>
      intro st out inv1 inv2 inv3 hnd hfold
      rw [List.foldlM_cons] at hfold
      have hmap : (t.id :: ts.map Torrent.id).Nodup := by simpa using hnd
      obtain ⟨hthead, htail⟩ := List.nodup_cons.mp hmap
      have hne : ∀ u ∈ ts, t.id ≠ u.id := by
        intro u hu he
        exact hthead (he ▸ List.mem_map_of_mem Torrent.id hu)
      cases hstep : syncStep cfg rules cr dry st t with
      | error e =>
          rw [hstep, exceptBind_error] at hfold
          cases hfold
      | ok a =>
          rw [hstep, exceptBind_ok] at hfold
          rcases syncStep_cases cfg rules cr dry st t a hstep with
            ⟨⟨nl, hrel⟩, hrem⟩ | ⟨hrel, hrem⟩ | ⟨hrel, hrem⟩
          · refine ih a out ?_ ?_ ?_ htail hfold
            · intro p hp
              rw [hrel] at hp
              rw [hrem]
              rcases List.mem_append.mp hp with hp | hp
              · exact inv1 p hp
              · rcases List.mem_singleton.mp hp with rfl
                exact inv3 t (List.mem_cons_self t ts)
            · intro u hu p hp
              rw [hrel] at hp
              rcases List.mem_append.mp hp with hp | hp
              · exact inv2 u (List.mem_cons_of_mem t hu) p hp
              · rcases List.mem_singleton.mp hp with rfl
                exact hne u hu
            · intro u hu
              rw [hrem]
              exact inv3 u (List.mem_cons_of_mem t hu)
          · refine ih a out ?_ ?_ ?_ htail hfold
            · intro p hp
              rw [hrel] at hp
              rw [hrem]
              intro hmem
              rcases List.mem_append.mp hmem with hmem | hmem
              · exact inv1 p hp hmem
              · exact inv2 t (List.mem_cons_self t ts) p hp (List.mem_singleton.mp hmem)
            · intro u hu p hp
              rw [hrel] at hp
              exact inv2 u (List.mem_cons_of_mem t hu) p hp
            · intro u hu
              rw [hrem]
              intro hmem
              rcases List.mem_append.mp hmem with hmem | hmem
              · exact inv3 u (List.mem_cons_of_mem t hu) hmem
              · exact hne u hu (List.mem_singleton.mp hmem).symm
          · refine ih a out ?_ ?_ ?_ htail hfold
            · intro p hp
              rw [hrel] at hp
              rw [hrem]
              exact inv1 p hp
            · intro u hu p hp
              rw [hrel] at hp
              exact inv2 u (List.mem_cons_of_mem t hu) p hp
            · intro u hu
              rw [hrem]
              exact inv3 u (List.mem_cons_of_mem t hu)

/-- Claim C2 as amended: for every planning pass over a snapshot with
distinct ids, a torrent for which a relabel action is recorded never
appears in the removal set of the same pass (the `not changed_label`
conjunct suppresses removal) — but it *can* appear in the move set: the
loop has no `continue` after the relabel branch, so the move check still
runs for a relabeled torrent. -/
theorem sync_relabel_excludes_remove (cfg : SyncCfg) (rules : HostMap) (dry : Bool)
    (ts : List Torrent) (st : SyncSt)
    (hnd : (ts.map Torrent.id).Nodup)
    (hok : syncPass cfg rules dry ts = .ok st) :
    ∀ p ∈ st.relabels, p.1 ∉ st.toRemove := by
  unfold syncPass at hok
  cases hf : ts.foldlM (syncStep cfg rules (filterOutKeep ts rules) dry)
      ⟨[], [], [], []⟩ with
  | error e =>
      simp only [hf] at hok
      cases hok
  | ok a =>
      simp only [hf] at hok
      cases hok
      exact syncLoop_relabel_not_removed cfg rules (filterOutKeep ts rules) dry ts
        ⟨[], [], [], []⟩ a (by simp) (by simp) (by simp) hnd hf

/-- Witness for the amended C2: the relabeled torrent of a one-torrent
pass is not in the removal set. -/
theorem sync_relabel_excludes_remove_witness :
    ("c", "new").1 ∉ (⟨[("c", "new")], [("c", "/new")], [],
      [Call.relabelC "c" "new", Call.moveC "c" "/new"]⟩ : SyncSt).toRemove :=
  sync_relabel_excludes_remove
    ⟨[("trk", "new")], [("trk", "/new")], true, true, true, 1, 1⟩ [] false
    [⟨"c", "name", "old", "h", "trk", 100, "/old", 1024⟩]
    ⟨[("c", "new")], [("c", "/new")], [],
      [Call.relabelC "c" "new", Call.moveC "c" "/new"]⟩ (by simp) rfl
    ("c", "new") (by simp)

/-- Counterexample to claim C2: a torrent whose tracker has both a label
remap and a path remap is relabeled *and* moved in the same pass — the
relabel branch sets `changed_label` but does not `continue`, so only
removal is suppressed, not the move. -/
theorem sync_relabel_move_counterexample :
    syncPass ⟨[("trk", "new")], [("trk", "/new")], true, true, true, 1, 1⟩ [] false
      [⟨"c", "name", "old", "h", "trk", 100, "/old", 1024⟩]
    = .ok ⟨[("c", "new")], [("c", "/new")], [],
        [Call.relabelC "c" "new", Call.moveC "c" "/new"]⟩
    ∧ ("c", "new") ∈ [("c", "new")]
    ∧ "c" ∈ [("c", "/new")].map Prod.fst :=
  ⟨rfl, by simp, by simp⟩

theorem syncStep_calls_filter (cfg : SyncCfg) (rules : HostMap) (cr : List String)
    (dry : Bool) (st : SyncSt) (t : Torrent) (a : SyncSt)
    (h : syncStep cfg rules cr dry st t = .ok a) :
    a.calls.filter isRemoveCall = st.calls.filter isRemoveCall := by
  unfold syncStep at h
  cases hrt : relabelTarget cfg t with
  | some nl =>
      simp only [hrt] at h
      cases h
      rw [moveCheck_calls_filter]
      cases dry <;> simp [isRemoveCall, List.filter_append]
  | none =>
      simp only [hrt] at h
      by_cases hc : cfg.remove = true ∧ t.id ∈ cr
      · rw [if_pos hc] at h
        cases hck : checkTorrent t (lookupHost rules t.tracker_alias)
            cfg.defaultSeedTime cfg.seedBuffer with
        | error e =>
            simp only [hck] at h
            cases h
        | ok bv =>
            simp only [hck] at h
            cases bv
            · cases h
              rw [moveCheck_calls_filter]
            · cases h
              rfl
      · rw [if_neg hc] at h
        cases h
        rw [moveCheck_calls_filter]

theorem syncLoop_calls_filter (cfg : SyncCfg) (rules : HostMap) (cr : List String)
    (dry : Bool) :
    ∀ (ts : List Torrent) (st out : SyncSt),
    ts.foldlM (syncStep cfg rules cr dry) st = .ok out →
    out.calls.filter isRemoveCall = st.calls.filter isRemoveCall := by
  intro ts
  induction ts with
  | nil =>
      intro st out h
      cases h
      rfl
  | cons t ts ih =>
      intro st out h
      rw [List.foldlM_cons] at h
      cases hstep : syncStep cfg rules cr dry st t with
      | error e =>
          rw [hstep, exceptBind_error] at h
          cases h
      | ok a =>
          rw [hstep, exceptBind_ok] at h
          rw [ih a out h, syncStep_calls_filter cfg rules cr dry st t a hstep]

/-- Claim C4 as amended: the removal calls issued while executing a pass
are exactly `to_remove` mapped to removal calls *in append (discovery)
order* — `_remove_torrents` iterates the list as received and `sync`
performs no reversal, so the earliest-discovered candidate is removed
first, not the most recent. -/
theorem sync_remove_call_order (cfg : SyncCfg) (rules : HostMap)
    (ts : List Torrent) (st : SyncSt)
    (hok : syncPass cfg rules false ts = .ok st) :
    st.calls.filter isRemoveCall = st.toRemove.map Call.removeC := by
  unfold syncPass at hok
  cases hf : ts.foldlM (syncStep cfg rules (filterOutKeep ts rules) false)
      ⟨[], [], [], []⟩ with
  | error e =>
      simp only [hf] at hok
      cases hok
  | ok a =>
      simp only [hf] at hok
      cases hok
      have hl := syncLoop_calls_filter cfg rules (filterOutKeep ts rules) false ts
        ⟨[], [], [], []⟩ a hf
      show (a.calls ++ removeCalls false a.toRemove).filter isRemoveCall
        = a.toRemove.map Call.removeC
      rw [List.filter_append, hl]
      have h2 : (removeCalls false a.toRemove).filter isRemoveCall
          = a.toRemove.map Call.removeC := by
        have hrc : removeCalls false a.toRemove = a.toRemove.map Call.removeC := by
          simp [removeCalls]
        rw [hrc]
        refine List.filter_eq_self.mpr ?_
        intro c hc
        obtain ⟨i, _, rfl⟩ := List.mem_map.mp hc
        rfl
      rw [h2]
      simp

/-- Witness for the amended C4: two removal candidates discovered in order
`a`, `b` are executed in that same order. -/
theorem sync_remove_call_order_witness :
    (⟨[], [], ["a", "b"],
      [Call.removeC "a", Call.removeC "b"]⟩ : SyncSt).calls.filter isRemoveCall
    = (⟨[], [], ["a", "b"],
      [Call.removeC "a", Call.removeC "b"]⟩ : SyncSt).toRemove.map Call.removeC :=
  sync_remove_call_order ⟨[], [], true, false, false, 1, 1⟩ []
    [⟨"a", "na", "l", "h", "x", 100, "/d", 2147483648⟩,
     ⟨"b", "nb", "l", "h", "x", 100, "/d", 1073741824⟩] _ (by
      have h : (1 : ℚ) < 100 := by norm_num
      simp [syncPass, List.foldlM_cons, List.foldlM_nil, syncStep, relabelTarget,
        lookupStr, moveCheck, checkTorrent, removeCalls, filterOutKeep,
        torrentsByTracker, addTorrentToGroup, filterGroup, sortDescWanted,
        List.insertionSort, List.orderedInsert, descWanted, lookupHost, h,
        exceptBind_ok, exceptBind_error])

/-- Counterexample to claim C4: with removal candidates appended in order
`["a", "b"]`, the issued removal sequence is `[remove a, remove b]` — the
discovery order, not its reverse. -/
theorem sync_remove_order_counterexample :
    syncPass ⟨[], [], true, false, false, 1, 1⟩ [] false
      [⟨"a", "na", "l", "h", "x", 100, "/d", 2147483648⟩,
       ⟨"b", "nb", "l", "h", "x", 100, "/d", 1073741824⟩]
    = .ok ⟨[], [], ["a", "b"], [Call.removeC "a", Call.removeC "b"]⟩
    ∧ [Call.removeC "a", Call.removeC "b"]
      ≠ (["a", "b"].reverse.map Call.removeC) := by
  constructor
  · have h : (1 : ℚ) < 100 := by norm_num
    simp [syncPass, List.foldlM_cons, List.foldlM_nil, syncStep, relabelTarget,
      lookupStr, moveCheck, checkTorrent, removeCalls, filterOutKeep,
      torrentsByTracker, addTorrentToGroup, filterGroup, sortDescWanted,
      List.insertionSort, List.orderedInsert, descWanted, lookupHost, h,
      exceptBind_ok, exceptBind_error]
  · simp

theorem syncStep_dry_rel (cfg : SyncCfg) (rules : HostMap) (cr : List String)
    (t : Torrent) (st st' : SyncSt)
    (h1 : st.relabels = st'.relabels) (h2 : st.moves = st'.moves)
    (h3 : st.toRemove = st'.toRemove) :
    (∀ e, syncStep cfg rules cr true st t = .error e
        ↔ syncStep cfg rules cr false st' t = .error e)
    ∧ ∀ a b, syncStep cfg rules cr true st t = .ok a →
        syncStep cfg rules cr false st' t = .ok b →
        (a.relabels = b.relabels ∧ a.moves = b.moves ∧ a.toRemove = b.toRemove)
        ∧ a.calls = st.calls := by
  unfold syncStep
  cases hrt : relabelTarget cfg t with
  | some nl =>
      simp only [hrt]
      constructor
      · intro e
        constructor <;> intro h <;> exact absurd h (by simp)
      · intro a b ha hb
        cases ha
        cases hb
        refine ⟨moveCheck_plan_congr cfg true false _ _ t
          (by simp [h1]) (by simp [h2]) (by simp [h3]), ?_⟩
        rw [moveCheck_calls_dry]
        simp
  | none =>
      simp only [hrt]
      by_cases hc : cfg.remove = true ∧ t.id ∈ cr
      · simp only [if_pos hc]
        cases hck : checkTorrent t (lookupHost rules t.tracker_alias)
            cfg.defaultSeedTime cfg.seedBuffer with
        | error e0 =>
            simp only [hck]
            refine ⟨fun e => ?_, fun a b ha hb => ?_⟩
            · trivial
            · cases ha
        | ok bv =>
            try simp only [hck]
            cases bv
            · constructor
              · intro e
                constructor <;> intro h <;> exact absurd h (by simp)
              · intro a b ha hb
                cases ha
                cases hb
                exact ⟨moveCheck_plan_congr cfg true false st st' t h1 h2 h3,
                  moveCheck_calls_dry cfg st t⟩
            · constructor
              · intro e
                constructor <;> intro h <;> exact absurd h (by simp)
              · intro a b ha hb
                cases ha
                cases hb
                exact ⟨⟨h1, h2, by rw [h3]⟩, rfl⟩
      · simp only [if_neg hc]
        constructor
        · intro e
          constructor <;> intro h <;> exact absurd h (by simp)
        · intro a b ha hb
          cases ha
          cases hb
          exact ⟨moveCheck_plan_congr cfg true false st st' t h1 h2 h3,
            moveCheck_calls_dry cfg st t⟩

theorem syncLoop_dry_rel (cfg : SyncCfg) (rules : HostMap) (cr : List String) :
    ∀ (ts : List Torrent) (st st' : SyncSt),
    st.relabels = st'.relabels → st.moves = st'.moves → st.toRemove = st'.toRemove →
    (∀ e, ts.foldlM (syncStep cfg rules cr true) st = .error e
        ↔ ts.foldlM (syncStep cfg rules cr false) st' = .error e)
    ∧ ∀ a b, ts.foldlM (syncStep cfg rules cr true) st = .ok a →
        ts.foldlM (syncStep cfg rules cr false) st' = .ok b →
        (a.relabels = b.relabels ∧ a.moves = b.moves ∧ a.toRemove = b.toRemove)
        ∧ a.calls = st.calls := by
  intro ts
  induction ts with
  | nil =>
      intro st st' h1 h2 h3
      constructor
      · intro e
        constructor <;> intro h <;> cases h
      · intro a b ha hb
        rw [List.foldlM_nil] at ha hb
        cases ha
        cases hb
        exact ⟨⟨h1, h2, h3⟩, rfl⟩
  | cons t ts ih =>
      intro st st' h1 h2 h3
      obtain ⟨hse, hsk⟩ := syncStep_dry_rel cfg rules cr t st st' h1 h2 h3
      cases hstep : syncStep cfg rules cr true st t with
      | error e0 =>
          have hstep' : syncStep cfg rules cr false st' t = .error e0 := (hse e0).mp hstep
          constructor
          · intro e
            rw [List.foldlM_cons, List.foldlM_cons, hstep, hstep',
              exceptBind_error, exceptBind_error]
          · intro a b ha _
            rw [List.foldlM_cons, hstep, exceptBind_error] at ha
            cases ha
      | ok a0 =>
          cases hstep' : syncStep cfg rules cr false st' t with
          | error e0 => exact absurd ((hse e0).mpr hstep') (by simp [hstep])
          | ok b0 =>
              obtain ⟨hplan, hcalls⟩ := hsk a0 b0 hstep hstep'
              obtain ⟨ihe, ihk⟩ := ih a0 b0 hplan.1 hplan.2.1 hplan.2.2
              constructor
              · intro e
                rw [List.foldlM_cons, List.foldlM_cons, hstep, hstep',
                  exceptBind_ok, exceptBind_ok]
                exact ihe e
              · intro a b ha hb
                rw [List.foldlM_cons, hstep, exceptBind_ok] at ha
                rw [List.foldlM_cons, hstep', exceptBind_ok] at hb
                obtain ⟨hp, hcl⟩ := ihk a b ha hb
                exact ⟨hp, hcl.trans hcalls⟩

/-- Claim C7: for every fixed input, the dry-run pass computes exactly the
same relabel/move/removal decisions (and fails identically on formula
errors) as the non-dry pass, and a dry-run pass issues zero daemon
mutation calls. -/
theorem sync_dry_run (cfg : SyncCfg) (rules : HostMap) (ts : List Torrent) :
    (syncPass cfg rules true ts).map planOf = (syncPass cfg rules false ts).map planOf
    ∧ ∀ st, syncPass cfg rules true ts = .ok st → st.calls = [] := by
  obtain ⟨herr, hok⟩ := syncLoop_dry_rel cfg rules (filterOutKeep ts rules) ts
    ⟨[], [], [], []⟩ ⟨[], [], [], []⟩ rfl rfl rfl
  unfold syncPass
  cases hf : ts.foldlM (syncStep cfg rules (filterOutKeep ts rules) true)
      ⟨[], [], [], []⟩ with
  | error e =>
      have hf' := (herr e).mp hf
      simp only [hf, hf']
      refine ⟨by simp, fun st h => ?_⟩
      cases h
  | ok a =>
      cases hf' : ts.foldlM (syncStep cfg rules (filterOutKeep ts rules) false)
          ⟨[], [], [], []⟩ with
      | error e => exact absurd ((herr e).mpr hf') (by simp [hf])
      | ok b =>
          obtain ⟨⟨hr, hm, ht⟩, hcalls⟩ := hok a b hf hf'
          simp only [hf, hf']
          constructor
          · simp [Except.map, planOf, hr, hm, ht]
          · intro st h
            cases h
            show a.calls ++ removeCalls true a.toRemove = []
            simp [removeCalls, hcalls]

/-- Witness for C7: a dry one-torrent relabel-and-move pass issues zero
calls. -/
theorem sync_dry_run_witness :
    (⟨[("c", "new")], [("c", "/new")], [], []⟩ : SyncSt).calls = [] :=
  (sync_dry_run ⟨[("trk", "new")], [("trk", "/new")], true, true, true, 1, 1⟩ []
    [⟨"c", "name", "old", "h", "trk", 100, "/old", 1024⟩]).2
    ⟨[("c", "new")], [("c", "/new")], [], []⟩ rfl

end DelugeSync
